import Mathlib

/-!
Verification development for the DistilRoBERTa causal-distillation model
(src/distillation/models/modeling_distilroberta.py).

Tensors are embedded as nested lists of real numbers, in row-major order:
a (batch, sequence, feature) tensor becomes a `List (List (List ℝ))`.
Python floats become real numbers; all control flow (masks, shapes, option
handling, loss gating) stays computable.  PyTorch assertion failures and
exceptions are modelled by `Option`/`Except` results.
-/

namespace CausalDistill

/-- Nested-list type standing for a (batch, sequence, feature) tensor. -/
abbrev T3 := List (List (List ℝ))

/-- Boolean selection along the first dimension, PyTorch advanced indexing
`x[mask]`: keeps the entries of `xs` whose mask bit is true, in order. -/
def selectMask {α : Type} (xs : List α) (m : List Bool) : List α :=
  ((xs.zip m).filter (fun p => p.2)).map (fun p => p.1)

/-- `torch.masked_select` on a (batch, sequence, feature) tensor with a
(batch, sequence) mask expanded along the feature dimension: row-major
flatten of the selected feature rows. -/
def maskedSelectExpand (x : T3) (m : List (List Bool)) : List ℝ :=
  ((x.zip m).map (fun bm => (selectMask bm.1 bm.2).flatten)).flatten

/-- Helper for `toRows`, structurally recursive on a fuel argument so that it
reduces definitionally. -/
def toRowsGo (v : ℕ) : ℕ → List ℝ → List (List ℝ)
  | 0, _ => []
  | _, [] => []
  | fuel + 1, xs => xs.take v :: toRowsGo v fuel (xs.drop v)

/-- `.view(-1, v)`: regroup a flat list into rows of length `v`. -/
def toRows (v : ℕ) (xs : List ℝ) : List (List ℝ) :=
  toRowsGo v xs.length xs

/-- Python dict assignment `d[k] = val` on the `student_outputs` mapping:
replaces the value at an existing key, appends otherwise. -/
def dictInsert (d : List (String × ℝ)) (k : String) (v : ℝ) : List (String × ℝ) :=
  if d.any (fun p => p.1 == k) then
    d.map (fun p => if p.1 == k then (k, v) else p)
  else d ++ [(k, v)]

/-- Lookup in the loss-term mapping. -/
def getTerm (d : List (String × ℝ)) (k : String) : Option ℝ :=
  (d.find? (fun p => p.1 == k)).map (fun p => p.2)

/-- Key-presence test in the loss-term mapping. -/
def hasTerm (d : List (String × ℝ)) (k : String) : Bool :=
  d.any (fun p => p.1 == k)

/-- Sum of exponentials of a row (the softmax denominator). -/
noncomputable def sumExp (r : List ℝ) : ℝ := (r.map Real.exp).sum

/-- `nn.functional.softmax` along the last dimension, one row. -/
noncomputable def softmaxRow (r : List ℝ) : List ℝ :=
  r.map (fun x => Real.exp x / sumExp r)

/-- `nn.functional.log_softmax` along the last dimension, one row. -/
noncomputable def logSoftmaxRow (r : List ℝ) : List ℝ :=
  r.map (fun x => x - Real.log (sumExp r))

/-- Pointwise `nn.KLDivLoss` contribution of one row:
`target * (log target - input)` summed over the row. -/
noncomputable def klPointwise (input target : List ℝ) : ℝ :=
  ((target.zip input).map (fun p => p.1 * (Real.log p.1 - p.2))).sum

/-- `nn.KLDivLoss(reduction="batchmean")`: total pointwise loss divided by
the first-dimension size of the input. -/
noncomputable def klDivLossBatchmean (input target : List (List ℝ)) : ℝ :=
  (((input.zip target).map (fun p => klPointwise p.1 p.2)).sum) / input.length

/-- `-log_softmax(row)[label]`: negative log likelihood of one position. -/
noncomputable def nllOf (r : List ℝ) (lbl : ℤ) : ℝ :=
  -((logSoftmaxRow r).getD lbl.toNat 0)

/-- `nn.CrossEntropyLoss` with `ignore_index = -100` and mean reduction:
average negative log likelihood over the non-ignored positions. -/
noncomputable def crossEntropyLoss (rows : List (List ℝ)) (labels : List ℤ) : ℝ :=
  let valid := (rows.zip labels).filter (fun p => p.2 != -100)
  ((valid.map (fun p => nllOf p.1 p.2)).sum) / valid.length

/-- `nn.MSELoss(reduction="sum")` over equally-shaped row lists. -/
noncomputable def mseSum (a b : List (List ℝ)) : ℝ :=
  ((a.zip b).map (fun p => ((p.1.zip p.2).map (fun q => (q.1 - q.2) ^ 2)).sum)).sum

/-- Dot product of two rows. -/
noncomputable def dotL (a b : List ℝ) : ℝ :=
  ((a.zip b).map (fun p => p.1 * p.2)).sum

/-- Euclidean norm of a row. -/
noncomputable def normL (a : List ℝ) : ℝ :=
  Real.sqrt ((a.map (fun x => x ^ 2)).sum)

/-- Cosine similarity of two feature rows. -/
noncomputable def cosSim (a b : List ℝ) : ℝ :=
  dotL a b / (normL a * normL b)

/-- `nn.CosineEmbeddingLoss(reduction="mean")` with target 1 everywhere:
mean of `1 - cos(x1, x2)` over the rows. -/
noncomputable def cosineEmbeddingLoss (a b : List (List ℝ)) : ℝ :=
  (((a.zip b).map (fun p => 1 - cosSim p.1 p.2)).sum) / a.length

/-- Per-row length profile of a 2-d tensor (its shape, for rectangular data). -/
def shape2 (x : List (List ℝ)) : List ℕ := x.map List.length

/-- Per-row length profile of a 3-d tensor. -/
def shape3 (x : T3) : List (List ℕ) := x.map shape2

/-- `x.size(-1)` of a (batch, sequence, feature) tensor. -/
def lastDim (x : T3) : ℕ := ((x.headD []).headD []).length

/-- Textbook KL divergence between two aligned finite distributions:
sum of `p * log (p / q)`.  Specification side for the soft-target claims. -/
noncomputable def klDiv (p q : List ℝ) : ℝ :=
  ((p.zip q).map (fun x => x.1 * Real.log (x.1 / x.2))).sum

/-! ### Sinusoidal position embeddings (_create_sinusoidal_embeddings) -/

/-- Angle table of `_create_sinusoidal_embeddings`:
`position_enc[pos][j] = pos / 10000 ** (2 * (j // 2) / dim)`. -/
noncomputable def positionEnc (dim pos j : ℕ) : ℝ :=
  (pos : ℝ) / (10000 : ℝ) ^ (((2 * (j / 2) : ℕ) : ℝ) / (dim : ℝ))

/-- A position-embedding weight table together with its requires_grad flag. -/
structure EmbTable where
  entry : ℕ → ℕ → ℝ
  requiresGrad : Bool

/-- `out[:, 0::2] = sin(position_enc[:, 0::2])`: column `2k` of the sliced
view is column `2k` of the full table on both sides, so every even column
`j < dim` receives `sin(position_enc[pos][j])`. -/
noncomputable def writeEvenCols (nPos dim : ℕ) (t : ℕ → ℕ → ℝ) : ℕ → ℕ → ℝ :=
  fun pos j =>
    if pos < nPos ∧ j < dim ∧ j % 2 = 0 then Real.sin (positionEnc dim pos j) else t pos j

/-- `out[:, 1::2] = cos(position_enc[:, 1::2])`. -/
noncomputable def writeOddCols (nPos dim : ℕ) (t : ℕ → ℕ → ℝ) : ℕ → ℕ → ℝ :=
  fun pos j =>
    if pos < nPos ∧ j < dim ∧ j % 2 = 1 then Real.cos (positionEnc dim pos j) else t pos j

/-- `_create_sinusoidal_embeddings(n_pos, dim, out)`: writes the sinusoid
values into the table and turns gradient tracking off
(`out.requires_grad = False`, `out.detach_()`). -/
noncomputable def createSinusoidalEmbeddings (nPos dim : ℕ) (out : EmbTable) : EmbTable :=
  ⟨writeOddCols nPos dim (writeEvenCols nPos dim out.entry), false⟩

/-! ### DistilRobertaModel.forward input validation -/

/-- `DistilRobertaModel.forward` input validation (source lines 535-542):
`input_ids` and `inputs_embeds` are mutually exclusive and at least one is
required; on success the (batch, sequence) input shape is returned. -/
def checkModelInputs (inputIds : Option (List (List ℤ))) (inputsEmbeds : Option T3) :
    Except String (ℕ × ℕ) :=
  match inputIds, inputsEmbeds with
  | some _, some _ => .error "You cannot specify both input_ids and inputs_embeds at the same time"
  | some ids, none => .ok (ids.length, (ids.headD []).length)
  | none, some e => .ok (e.length, (e.headD []).length)
  | none, none => .error "You have to specify either input_ids or inputs_embeds"

/-! ### MultiHeadSelfAttention head pruning -/

/-- Index shift used by `transformers.find_pruneable_heads_and_indices`
(external collaborator of the source): a head index is moved down by the
number of already-pruned heads strictly before it. -/
def shiftHead (alreadyPruned : Finset ℕ) (h : ℕ) : ℕ :=
  h - (alreadyPruned.filter (fun x => x < h)).card

/-- The flattened row mask built by `find_pruneable_heads_and_indices`:
`mask = ones(n_heads, head_size)`, the rows at the shifted positions of the
still-to-prune heads zeroed, then `view(-1)`. -/
def pruneFlatMask (nHeads headSize : ℕ) (shifted : Finset ℕ) : List Bool :=
  ((List.range nHeads).map
    (fun r => List.replicate headSize (decide (r ∉ shifted)))).flatten

/-- Modelled from the transformers-library helper
`find_pruneable_heads_and_indices(heads, n_heads, head_size, already_pruned)`:
returns the set of heads still to prune (`set(heads) - already_pruned`) and
the length of the kept index list (the number of ones in the flattened
mask). -/
def findPruneableHeadsAndIndices (heads : Finset ℕ) (nHeads headSize : ℕ)
    (alreadyPruned : Finset ℕ) : Finset ℕ × ℕ :=
  (heads \ alreadyPruned,
    (pruneFlatMask nHeads headSize
      ((heads \ alreadyPruned).image (shiftHead alreadyPruned))).count true)

/-- Shape-level state of a `MultiHeadSelfAttention` module: the head count,
the effective width `dim`, the (in_features, out_features) shapes of the
four projections, and the pruned-heads set. -/
structure MultiHeadSelfAttention where
  numAttentionHeads : ℕ
  dim : ℕ
  qLin : ℕ × ℕ
  kLin : ℕ × ℕ
  vLin : ℕ × ℕ
  outLin : ℕ × ℕ
  prunedHeads : Finset ℕ
deriving DecidableEq

/-- `MultiHeadSelfAttention.prune_heads` (source lines 143-157):
`prune_linear_layer` keeps exactly the index entries, so along dim 0 the
out_features become the kept count and along dim 1 the in_features do. -/
def MultiHeadSelfAttention.pruneHeads (m : MultiHeadSelfAttention) (heads : Finset ℕ) :
    MultiHeadSelfAttention :=
  let attentionHeadSize := m.dim / m.numAttentionHeads
  if heads.card = 0 then m
  else
    let fp := findPruneableHeadsAndIndices heads m.numAttentionHeads attentionHeadSize
      m.prunedHeads
    { numAttentionHeads := m.numAttentionHeads - fp.1.card
      dim := attentionHeadSize * (m.numAttentionHeads - fp.1.card)
      qLin := (m.qLin.1, fp.2)
      kLin := (m.kLin.1, fp.2)
      vLin := (m.vLin.1, fp.2)
      outLin := (fp.2, m.outLin.2)
      prunedHeads := m.prunedHeads ∪ fp.1 }

/-! ### Counting lemmas for the pruning mask -/

theorem count_pruneFlatMask (nHeads headSize : ℕ) (shifted : Finset ℕ) :
    (pruneFlatMask nHeads headSize shifted).count true =
      headSize * ((Finset.range nHeads).filter (fun r => r ∉ shifted)).card := by
  induction nHeads with
  | zero => simp [pruneFlatMask]
  | succ n ih =>
      rw [pruneFlatMask, List.range_succ, List.map_append, List.flatten_append,
        List.count_append]
      have hl : ((List.range n).map
          (fun r => List.replicate headSize (decide (r ∉ shifted)))).flatten.count true =
          headSize * ((Finset.range n).filter (fun r => r ∉ shifted)).card := ih
      rw [hl]
      by_cases h : n ∈ shifted
      · have : (Finset.range (n + 1)).filter (fun r => r ∉ shifted) =
            (Finset.range n).filter (fun r => r ∉ shifted) := by
          rw [Finset.range_succ, Finset.filter_insert]
          simp [h]
        rw [this]
        simp [List.count_replicate, h]
      · have hnotin : n ∉ (Finset.range n).filter (fun r => r ∉ shifted) := by
          simp
        have : (Finset.range (n + 1)).filter (fun r => r ∉ shifted) =
            insert n ((Finset.range n).filter (fun r => r ∉ shifted)) := by
          rw [Finset.range_succ, Finset.filter_insert]
          simp [h]
        rw [this, Finset.card_insert_of_not_mem hnotin]
        simp [List.count_replicate, h, Nat.mul_succ]

theorem card_range_filter_not_mem (n : ℕ) (S : Finset ℕ) (hS : S ⊆ Finset.range n) :
    ((Finset.range n).filter (fun r => r ∉ S)).card = n - S.card := by
  have h1 : (Finset.range n).filter (fun r => r ∈ S) = S := by
    ext x
    simp only [Finset.mem_filter]
    exact ⟨fun h => h.2, fun h => ⟨hS h, h⟩⟩
  have h2 : (Finset.range n).filter (fun r => r ∉ S) =
      Finset.range n \ S := by
    rw [Finset.filter_not, h1]
  rw [h2, Finset.card_sdiff hS, Finset.card_range]

theorem shiftHead_lt_of_lt (P : Finset ℕ) (a b : ℕ) (ha : a ∉ P) (hab : a < b) :
    shiftHead P a < shiftHead P b := by
  have hsub : P.filter (fun x => x < b) ⊆ P.filter (fun x => x < a) ∪ Finset.Ico (a + 1) b := by
    intro x hx
    simp only [Finset.mem_filter] at hx
    rcases lt_or_ge x a with h | h
    · exact Finset.mem_union_left _ (Finset.mem_filter.mpr ⟨hx.1, h⟩)
    · refine Finset.mem_union_right _ (Finset.mem_Ico.mpr ⟨?_, hx.2⟩)
      rcases Nat.eq_or_lt_of_le h with h2 | h2
      · exact absurd (h2 ▸ hx.1) ha
      · omega
  have hcB : (P.filter (fun x => x < b)).card ≤
      (P.filter (fun x => x < a)).card + (b - (a + 1)) := by
    calc (P.filter (fun x => x < b)).card
        ≤ (P.filter (fun x => x < a) ∪ Finset.Ico (a + 1) b).card :=
          Finset.card_le_card hsub
      _ ≤ (P.filter (fun x => x < a)).card + (Finset.Ico (a + 1) b).card :=
          Finset.card_union_le _ _
      _ = (P.filter (fun x => x < a)).card + (b - (a + 1)) := by rw [Nat.card_Ico]
  have hcA : (P.filter (fun x => x < a)).card ≤ a := by
    have hsr : P.filter (fun x => x < a) ⊆ Finset.range a := by
      intro x hx
      exact Finset.mem_range.mpr (Finset.mem_filter.mp hx).2
    simpa using Finset.card_le_card hsr
  unfold shiftHead
  omega

theorem card_shift_image (P toPrune : Finset ℕ) (hd : ∀ x ∈ toPrune, x ∉ P) :
    (toPrune.image (shiftHead P)).card = toPrune.card := by
  apply Finset.card_image_of_injOn
  intro a ha b hb hab
  rcases lt_trichotomy a b with h | h | h
  · exact absurd hab (Nat.ne_of_lt (shiftHead_lt_of_lt P a b (hd a ha) h))
  · exact h
  · exact absurd hab.symm (Nat.ne_of_lt (shiftHead_lt_of_lt P b a (hd b hb) h))

theorem shift_image_subset_range (P toPrune : Finset ℕ) (n : ℕ)
    (h : toPrune ⊆ Finset.range n) :
    toPrune.image (shiftHead P) ⊆ Finset.range n := by
  intro y hy
  rcases Finset.mem_image.mp hy with ⟨x, hx, hxy⟩
  have h1 : shiftHead P x ≤ x := Nat.sub_le _ _
  exact Finset.mem_range.mpr (hxy ▸ lt_of_le_of_lt h1 (Finset.mem_range.mp (h hx)))

theorem findPruneable_keep (heads P : Finset ℕ) (nHeads headSize : ℕ)
    (hh : heads ⊆ Finset.range nHeads) :
    (findPruneableHeadsAndIndices heads nHeads headSize P).2 =
      headSize * (nHeads - (heads \ P).card) := by
  have hsub : heads \ P ⊆ Finset.range nHeads :=
    fun x hx => hh (Finset.mem_sdiff.mp hx).1
  have h1 : (heads \ P).image (shiftHead P) ⊆ Finset.range nHeads :=
    shift_image_subset_range P (heads \ P) nHeads hsub
  have h2 : ((heads \ P).image (shiftHead P)).card = (heads \ P).card :=
    card_shift_image P (heads \ P) (fun x hx => (Finset.mem_sdiff.mp hx).2)
  show (pruneFlatMask nHeads headSize ((heads \ P).image (shiftHead P))).count true = _
  rw [count_pruneFlatMask, card_range_filter_not_mem nHeads _ h1, h2]

/-! ### Interchange mechanism and Transformer.forward -/

/-- The `offset_range` object of a Variable Reference, with the two fields
the source reads: `.start` and `.stop` (the latter is added to the start
offset, i.e. it acts as the slice length). -/
structure IRange where
  start : ℕ
  stop : ℕ

/-- A Variable Reference as consumed by `Transformer.forward`:
`(donor-key, head_index, offset_range)`. -/
structure VariableRef where
  donorKey : ℕ
  headIndex : ℕ
  offsetRange : IRange

/-- Slice assignment `row[start:stop] = vals` along the feature dimension at
one sequence position (PyTorch requires `vals.length = stop - start` and
`stop ≤ row.length`; modelled by splicing). -/
def assignSlice (row vals : List ℝ) (s e : ℕ) : List ℝ :=
  row.take s ++ (vals ++ row.drop e)

/-- The feature-slice assignment applied at every sequence position of one
batch example, the donor example supplying the written values. -/
def assignSliceSeq (ex donorEx : List (List ℝ)) (s e : ℕ) : List (List ℝ) :=
  (ex.zip donorEx).map (fun p => assignSlice p.1 p.2 s e)

/-- `hidden_state[..., start:stop][interchange_mask] = replacing_activations`
(source line 337): batch rows with a true destination-mask bit consume the
replacement rows in order and get their `[start, stop)` feature slice
overwritten; all other rows are untouched. -/
def interchangeOnce : T3 → List Bool → T3 → ℕ → ℕ → T3
  | [], _, _, _, _ => []
  | x :: xs, [], _, _, _ => x :: xs
  | x :: xs, mb :: ms, repl, s, e =>
    if mb then
      match repl with
      | [] => x :: interchangeOnce xs ms [] s e
      | r :: rs => assignSliceSeq x r s e :: interchangeOnce xs ms rs s e
    else x :: interchangeOnce xs ms repl s e

/-- The per-layer interchange loop (source lines 332-337): for each Variable
Reference, look up the stored donor activations by donor key, compute
`start_index = head_index * head_dimension + offset_range.start` and
`stop_index = start_index + offset_range.stop`, select the donor rows by the
dual mask and overwrite the destination rows. -/
def interchangeLayer (headDimension : ℕ) (interchangedVariables : List T3)
    (vars : List VariableRef) (interchangeMask dualInterchangeMask : List Bool)
    (hs : T3) : T3 :=
  vars.foldl (fun h v =>
    interchangeOnce h interchangeMask
      (selectMask (interchangedVariables.getD v.donorKey []) dualInterchangeMask)
      (v.headIndex * headDimension + v.offsetRange.start)
      (v.headIndex * headDimension + v.offsetRange.start + v.offsetRange.stop)) hs

/-- One iteration of the layer loop of `Transformer.forward` (source lines
319-344): run the block, then interchange when the current layer index is
named in the interchange specification (a layer-index-keyed mapping;
`none` models `variable_names = None`, and the special "embeddings"
specification never reaches the layer loop). -/
def transformerLayerStep (headDimension : ℕ) (interchangedVariables : List T3)
    (variableNames : Option (List (ℕ × List VariableRef)))
    (interchangeMask dualInterchangeMask : List Bool)
    (h : T3) (ib : ℕ × (T3 → T3)) : T3 :=
  match variableNames with
  | none => ib.2 h
  | some vn =>
    match vn.lookup ib.1 with
    | none => ib.2 h
    | some vars =>
      interchangeLayer headDimension interchangedVariables vars
        interchangeMask dualInterchangeMask (ib.2 h)

/-- Accumulator step of the layer fold, also collecting the per-layer hidden
states when `output_hidden_states` is true. -/
def transformerFoldStep (headDimension : ℕ) (interchangedVariables : List T3)
    (variableNames : Option (List (ℕ × List VariableRef)))
    (interchangeMask dualInterchangeMask : List Bool) (outputHiddenStates : Bool)
    (acc : T3 × List T3) (ib : ℕ × (T3 → T3)) : T3 × List T3 :=
  (transformerLayerStep headDimension interchangedVariables variableNames
      interchangeMask dualInterchangeMask acc.1 ib,
   if outputHiddenStates then acc.2 ++ [acc.1] else acc.2)

/-- `Transformer.forward` (source lines 290-354): fold the enumerated blocks
over the running hidden state, interchanging after each named layer, and
append the final hidden state to the collected list when
`output_hidden_states` is true. -/
def Transformer.forward (blocks : List (T3 → T3)) (headDimension : ℕ)
    (outputHiddenStates : Bool) (interchangedVariables : List T3)
    (variableNames : Option (List (ℕ × List VariableRef)))
    (interchangeMask dualInterchangeMask : List Bool) (x : T3) :
    T3 × Option (List T3) :=
  match (blocks.enum).foldl
      (transformerFoldStep headDimension interchangedVariables variableNames
        interchangeMask dualInterchangeMask outputHiddenStates) (x, []) with
  | (h, all) => (h, if outputHiddenStates then some (all ++ [h]) else none)

theorem interchangeOnce_all_false (hs : T3) (m : List Bool) (repl : T3) (s e : ℕ)
    (hm : ∀ b ∈ m, b = false) :
    interchangeOnce hs m repl s e = hs := by
  induction hs generalizing m repl with
  | nil => rfl
  | cons x xs ih =>
    cases m with
    | nil => rfl
    | cons mb ms =>
      have hmb : mb = false := hm mb (List.mem_cons_self mb ms)
      subst hmb
      simp only [interchangeOnce, if_neg Bool.false_ne_true, List.cons.injEq, true_and]
      exact ih ms repl (fun b hb => hm b (List.mem_cons_of_mem _ hb))

theorem interchangeLayer_all_false (headDimension : ℕ) (iv : List T3)
    (vars : List VariableRef) (im dm : List Bool) (hs : T3)
    (hm : ∀ b ∈ im, b = false) :
    interchangeLayer headDimension iv vars im dm hs = hs := by
  induction vars generalizing hs with
  | nil => rfl
  | cons v vs ih =>
    show List.foldl _ _ (v :: vs) = hs
    rw [List.foldl_cons, interchangeOnce_all_false _ _ _ _ _ hm]
    exact ih hs

/-- C3: with destination and donor masks all false, the forward pass with an
interchange specification produces the final hidden state and the collected
per-layer hidden states identical to a run with no interchange specification
at all. -/
theorem transformer_forward_all_false_masks (blocks : List (T3 → T3))
    (headDimension : ℕ) (outputHiddenStates : Bool) (interchangedVariables : List T3)
    (vn : List (ℕ × List VariableRef)) (interchangeMask dualInterchangeMask : List Bool)
    (x : T3)
    (hi : ∀ b ∈ interchangeMask, b = false)
    (hd : ∀ b ∈ dualInterchangeMask, b = false) :
    Transformer.forward blocks headDimension outputHiddenStates interchangedVariables
        (some vn) interchangeMask dualInterchangeMask x =
      Transformer.forward blocks headDimension outputHiddenStates interchangedVariables
        none interchangeMask dualInterchangeMask x := by
  have hstep : ∀ (acc : T3 × List T3) (ib : ℕ × (T3 → T3)),
      transformerFoldStep headDimension interchangedVariables (some vn)
          interchangeMask dualInterchangeMask outputHiddenStates acc ib =
        transformerFoldStep headDimension interchangedVariables none
          interchangeMask dualInterchangeMask outputHiddenStates acc ib := by
    intro acc ib
    unfold transformerFoldStep transformerLayerStep
    cases hvn : vn.lookup ib.1 with
    | none => simp [hvn]
    | some vars => simp [hvn, interchangeLayer_all_false _ _ _ _ _ _ hi]
  have hfold : ∀ (l : List (ℕ × (T3 → T3))) (acc : T3 × List T3),
      l.foldl (transformerFoldStep headDimension interchangedVariables (some vn)
          interchangeMask dualInterchangeMask outputHiddenStates) acc =
        l.foldl (transformerFoldStep headDimension interchangedVariables none
          interchangeMask dualInterchangeMask outputHiddenStates) acc := by
    intro l
    induction l with
    | nil => intro acc; rfl
    | cons y ys ih =>
      intro acc
      rw [List.foldl_cons, List.foldl_cons, hstep, ih]
  unfold Transformer.forward
  rw [hfold]

/-- Entry (b, p, j) of a (batch, sequence, feature) tensor. -/
def entry3 (x : T3) (b p j : ℕ) : ℝ := ((x.getD b []).getD p []).getD j 0

theorem getD_take_lt (l : List ℝ) (s j : ℕ) (h : j < s) :
    (l.take s).getD j 0 = l.getD j 0 := by
  induction l generalizing s j with
  | nil => simp
  | cons x xs ih =>
    cases s with
    | zero => omega
    | succ s2 =>
      cases j with
      | zero => rfl
      | succ j2 => exact ih s2 j2 (by omega)

theorem getD_drop_add (l : List ℝ) (n i : ℕ) :
    (l.drop n).getD i 0 = l.getD (n + i) 0 := by
  induction n generalizing l with
  | zero => simp
  | succ n2 ih =>
    cases l with
    | nil => simp
    | cons x xs =>
      show (xs.drop n2).getD i 0 = (x :: xs).getD (n2 + 1 + i) 0
      rw [ih]
      have hidx : n2 + 1 + i = (n2 + i) + 1 := by omega
      rw [hidx, List.getD_cons_succ]

theorem assignSlice_getD (row vals : List ℝ) (s L j : ℕ)
    (hv : vals.length = L) (he : s + L ≤ row.length) :
    (assignSlice row vals s (s + L)).getD j 0 =
      if s ≤ j ∧ j < s + L then vals.getD (j - s) 0 else row.getD j 0 := by
  have hlt : (row.take s).length = s := by
    rw [List.length_take]
    omega
  unfold assignSlice
  rcases lt_or_ge j s with hj | hj
  · rw [if_neg (by omega), List.getD_append _ _ _ _ (by omega), getD_take_lt _ _ _ hj]
  · have h1 : (row.take s ++ (vals ++ row.drop (s + L))).getD j 0 =
        (vals ++ row.drop (s + L)).getD (j - s) 0 := by
      rw [List.getD_append_right _ _ _ _ (by omega), hlt]
    rw [h1]
    rcases lt_or_ge j (s + L) with hj2 | hj2
    · rw [if_pos ⟨hj, hj2⟩, List.getD_append _ _ _ _ (by omega)]
    · rw [if_neg (by omega), List.getD_append_right _ _ _ _ (by omega), hv, getD_drop_add]
      congr 1
      omega

theorem assignSliceSeq_getD (ex donorEx : List (List ℝ)) (s e p : ℕ)
    (hlen : donorEx.length = ex.length) (hp : p < ex.length) :
    (assignSliceSeq ex donorEx s e).getD p [] =
      assignSlice (ex.getD p []) (donorEx.getD p []) s e := by
  induction ex generalizing donorEx p with
  | nil => simp at hp
  | cons x xs ih =>
    cases donorEx with
    | nil => simp at hlen
    | cons d ds =>
      cases p with
      | zero => rfl
      | succ p2 =>
        show (assignSliceSeq xs ds s e).getD p2 [] = _
        rw [ih ds p2 (by simpa using hlen) (by simpa using hp)]
        rfl

theorem interchangeOnce_getD (hs : T3) (m : List Bool) (repl : T3) (s e : ℕ)
    (hlen : m.length = hs.length) (hsel : m.count true ≤ repl.length) :
    ∀ b, b < hs.length →
    (interchangeOnce hs m repl s e).getD b [] =
      if m.getD b false then
        assignSliceSeq (hs.getD b []) (repl.getD ((m.take b).count true) []) s e
      else hs.getD b [] := by
  induction hs generalizing m repl with
  | nil => intro b hb; simp at hb
  | cons x xs ih =>
    cases m with
    | nil => simp at hlen
    | cons mb ms =>
      intro b hb
      have hlen2 : ms.length = xs.length := by simpa using hlen
      cases mb with
      | false =>
        have hsel2 : ms.count true ≤ repl.length := by
          simpa [List.count_cons] using hsel
        cases b with
        | zero => simp [interchangeOnce]
        | succ b2 =>
          have hb2 : b2 < xs.length := by simpa using hb
          have hrec := ih ms repl hlen2 hsel2 b2 hb2
          simpa [interchangeOnce, List.count_cons] using hrec
      | true =>
        cases repl with
        | nil =>
          exfalso
          simp [List.count_cons] at hsel
        | cons r rs =>
          have hsel2 : ms.count true ≤ rs.length := by
            simp [List.count_cons] at hsel
            omega
          cases b with
          | zero => simp [interchangeOnce]
          | succ b2 =>
            have hb2 : b2 < xs.length := by simpa using hb
            have hrec := ih ms rs hlen2 hsel2 b2 hb2
            simpa [interchangeOnce, List.count_cons] using hrec

theorem getD_mem {α : Type} (l : List α) (n : ℕ) (d : α) (h : n < l.length) :
    l.getD n d ∈ l := by
  rw [List.getD_eq_getElem _ _ h]
  exact List.getElem_mem h

theorem take_count_lt (m : List Bool) (b : ℕ) (hb : b < m.length)
    (ht : m.getD b false = true) :
    (m.take b).count true < m.count true := by
  induction m generalizing b with
  | nil => simp at hb
  | cons x xs ih =>
    cases b with
    | zero =>
      have hx : x = true := ht
      subst hx
      simp [List.count_cons]
    | succ b2 =>
      have hrec := ih b2 (by simpa using hb) ht
      cases x with
      | false => simpa [List.count_cons] using hrec
      | true =>
        simp only [List.take_succ_cons, List.count_cons] at hrec ⊢
        omega

/-- C1: for a Variable Reference `(donor-key, head_index, offset_range)`
assigned to the current layer, the per-variable interchange overwrite changes
exactly the flat feature offsets from
`head_index * head_dimension + offset_range.start` (inclusive) up to that
start plus `offset_range.stop` (exclusive), on exactly the rows selected by
the destination mask, writing there the donor-mask-selected rows of the
stored donor activations in order; every other entry is unchanged. -/
theorem interchange_variable_slice (headDimension : ℕ)
    (interchangedVariables : List T3) (v : VariableRef) (im dm : List Bool)
    (hs : T3) (seqLen featureDim b p j : ℕ)
    (hmlen : im.length = hs.length)
    (hsel : im.count true ≤
      (selectMask (interchangedVariables.getD v.donorKey []) dm).length)
    (hseq : ∀ ex ∈ hs, ex.length = seqLen)
    (hwidth : ∀ ex ∈ hs, ∀ r ∈ ex, r.length = featureDim)
    (hdseq : ∀ d ∈ selectMask (interchangedVariables.getD v.donorKey []) dm,
      d.length = seqLen)
    (hdwidth : ∀ d ∈ selectMask (interchangedVariables.getD v.donorKey []) dm,
      ∀ r ∈ d, r.length = v.offsetRange.stop)
    (hbound : v.headIndex * headDimension + v.offsetRange.start +
      v.offsetRange.stop ≤ featureDim)
    (hb : b < hs.length) (hp : p < seqLen) (hj : j < featureDim) :
    entry3 (interchangeLayer headDimension interchangedVariables [v] im dm hs) b p j =
      if im.getD b false ∧
          v.headIndex * headDimension + v.offsetRange.start ≤ j ∧
          j < v.headIndex * headDimension + v.offsetRange.start + v.offsetRange.stop then
        (((selectMask (interchangedVariables.getD v.donorKey []) dm).getD
            ((im.take b).count true) []).getD p []).getD
          (j - (v.headIndex * headDimension + v.offsetRange.start)) 0
      else entry3 hs b p j := by
  have hrowmem : hs.getD b [] ∈ hs := getD_mem hs b [] hb
  have hexlen : (hs.getD b []).length = seqLen := hseq _ hrowmem
  have hlayer : interchangeLayer headDimension interchangedVariables [v] im dm hs =
      interchangeOnce hs im
        (selectMask (interchangedVariables.getD v.donorKey []) dm)
        (v.headIndex * headDimension + v.offsetRange.start)
        (v.headIndex * headDimension + v.offsetRange.start + v.offsetRange.stop) := rfl
  rw [entry3, hlayer,
    interchangeOnce_getD hs im _ _ _ hmlen hsel b hb]
  cases hmb : im.getD b false with
  | false =>
    rw [if_neg (by simp [hmb])]
    rfl
  | true =>
    have hklt : (im.take b).count true <
        (selectMask (interchangedVariables.getD v.donorKey []) dm).length :=
      lt_of_lt_of_le (take_count_lt im b (hmlen ▸ hb) hmb) hsel
    have hdmem : (selectMask (interchangedVariables.getD v.donorKey []) dm).getD
        ((im.take b).count true) [] ∈
        selectMask (interchangedVariables.getD v.donorKey []) dm :=
      getD_mem _ _ [] hklt
    have hdlen : ((selectMask (interchangedVariables.getD v.donorKey []) dm).getD
        ((im.take b).count true) []).length = seqLen := hdseq _ hdmem
    rw [if_pos rfl]
    rw [assignSliceSeq_getD _ _ _ _ p (by rw [hdlen, hexlen]) (by rw [hexlen]; exact hp)]
    have hpmem : (hs.getD b []).getD p [] ∈ hs.getD b [] :=
      getD_mem (hs.getD b []) p [] (by rw [hexlen]; exact hp)
    have hdpmem : ((selectMask (interchangedVariables.getD v.donorKey []) dm).getD
        ((im.take b).count true) []).getD p [] ∈
        ((selectMask (interchangedVariables.getD v.donorKey []) dm).getD
          ((im.take b).count true) []) :=
      getD_mem _ p [] (by rw [hdlen]; exact hp)
    rw [assignSlice_getD _ _ _ _ j (hdwidth _ hdmem _ hdpmem)
      (by rw [hwidth _ hrowmem _ hpmem]; exact hbound)]
    simp only [hmb, true_and]
    rfl

/-- Witness for C1: one batch row, one donor row, head 0, range start 0 and
length 1 in a width-1 hidden state. -/
theorem interchange_variable_slice_witness :
    entry3 (interchangeLayer 1 [[[[ (7 : ℝ)]]]] [⟨0, 0, ⟨0, 1⟩⟩] [true] [true]
        [[[ (5 : ℝ)]]]) 0 0 0 =
      if ([true] : List Bool).getD 0 false ∧ 0 * 1 + 0 ≤ 0 ∧ 0 < 0 * 1 + 0 + 1 then
        (((selectMask (([[[[ (7 : ℝ)]]]] : List T3).getD 0 []) [true]).getD
            (([true].take 0).count true) []).getD 0 []).getD (0 - (0 * 1 + 0)) 0
      else entry3 [[[ (5 : ℝ)]]] 0 0 0 :=
  interchange_variable_slice 1 [[[[ (7 : ℝ)]]]] ⟨0, 0, ⟨0, 1⟩⟩ [true] [true]
    [[[ (5 : ℝ)]]] 1 1 0 0 0 rfl (by simp [selectMask]) (by simp) (by simp)
    (by simp [selectMask]) (by simp [selectMask]) (by simp) (by simp) (by simp) (by simp)

/-- Witness for C3: one identity block, batch of one example, masks false. -/
theorem transformer_forward_all_false_masks_witness :
    Transformer.forward [fun h => h] 2 true [[[[ (1 : ℝ), 2]]]]
        (some [(0, [⟨0, 0, ⟨0, 1⟩⟩])]) [false] [false] [[[3, 4]]] =
      Transformer.forward [fun h => h] 2 true [[[[ (1 : ℝ), 2]]]]
        none [false] [false] [[[3, 4]]] :=
  transformer_forward_all_false_masks [fun h => h] 2 true [[[[ (1 : ℝ), 2]]]]
    [(0, [⟨0, 0, ⟨0, 1⟩⟩])] [false] [false] [[[3, 4]]]
    (by simp) (by simp)

/-! ### Distillation loss composer (DistilRobertaForMaskedLM.forward) -/

/-- 2-d boolean mask over (batch, sequence). -/
abbrev Mask2 := List (List Bool)

/-- The output object of `DistilRobertaForMaskedLM.forward` in return_dict
mode: the optional masked-LM loss, the prediction logits, and the
incrementally extended mapping of named loss terms. -/
structure StudentOutputs where
  loss : Option ℝ
  logits : T3
  lossTerms : List (String × ℝ)

/-- Arguments of the loss-composing tail of
`DistilRobertaForMaskedLM.forward` (source lines 684-811).
`predictionLogits` and `hiddenStates` are the student outputs produced
upstream by the encoder and the prediction head; `sLogitsArg` and
`sHiddenStatesArg` are the separately passed `s_logits` / `s_hidden_states`
arguments, asserted non-None but not otherwise read in the causal branch. -/
structure DistillArgs where
  predictionLogits : T3
  hiddenStates : Option (List T3)
  labels : Option (List (List ℤ))
  attentionMask : Mask2
  tLogits : Option T3
  tHiddenStates : Option (List T3)
  causalTLogits : Option T3
  causalTHiddenStates : Option (List T3)
  sLogitsArg : Option T3
  sHiddenStatesArg : Option (List T3)
  temperature : ℝ
  restrictCeToMask : Bool
  lmLabels : List (List ℤ)
  alphaMlm : ℚ
  alphaClm : ℚ
  alphaMse : ℚ
  alphaCos : ℚ

/-- The position-selection mask of the soft-target loss (source lines
708-711): the gold-label mask `lm_labels > -1` when `restrict_ce_to_mask`,
the attention mask otherwise. -/
def ceMask (restrictCeToMask : Bool) (lmLabels : List (List ℤ))
    (attentionMask : Mask2) : Mask2 :=
  if restrictCeToMask then
    lmLabels.map (fun row => row.map (fun x => decide (-1 < x)))
  else attentionMask

/-- `torch.masked_select` with the expanded mask followed by
`.view(-1, v)` (source lines 712-719). -/
def selectRows (x : T3) (mask : Mask2) (v : ℕ) : List (List ℝ) :=
  toRows v (maskedSelectExpand x mask)

/-- Specification-side masked selection: the feature rows at mask-true
positions, in row-major order. -/
def specSelectedRows (x : T3) (m : Mask2) : List (List ℝ) :=
  ((x.zip m).map (fun bm => selectMask bm.1 bm.2)).flatten

/-- `loss_ce` (source lines 722-728): `KLDivLoss(batchmean)` applied to
`log_softmax(s_slct / T)` and `softmax(t_slct / T)`, times `T ** 2`. -/
noncomputable def lossCe (sSlct tSlct : List (List ℝ)) (temperature : ℝ) : ℝ :=
  klDivLossBatchmean
    (sSlct.map (fun r => logSoftmaxRow (r.map (fun x => x / temperature))))
    (tSlct.map (fun r => softmaxRow (r.map (fun x => x / temperature)))) *
    temperature ^ 2

/-- `loss_mlm` (source line 733): cross entropy of the flattened student
logits against the flattened lm_labels. -/
noncomputable def lossMlmTerm (sLogits : T3) (lmLabels : List (List ℤ)) : ℝ :=
  crossEntropyLoss sLogits.flatten lmLabels.flatten

/-- `loss_clm` (source lines 736-738): shift logits by dropping the last
sequence position and labels by dropping the first, then cross entropy. -/
noncomputable def lossClmTerm (sLogits : T3) (lmLabels : List (List ℤ)) : ℝ :=
  crossEntropyLoss ((sLogits.map (fun ex => ex.dropLast)).flatten)
    ((lmLabels.map (fun row => row.tail)).flatten)

/-- `loss_cos` (source lines 745-759): cosine-embedding loss with target 1
between the attention-mask-selected rows of the last student and teacher
hidden states, rows of width `s_hidden_states.size(-1)`. -/
noncomputable def lossCosTerm (sLast tLast : T3) (attentionMask : Mask2) : ℝ :=
  cosineEmbeddingLoss (selectRows sLast attentionMask (lastDim sLast))
    (selectRows tLast attentionMask (lastDim sLast))

/-- The loss-composing tail of `DistilRobertaForMaskedLM.forward` (source
lines 684-813) in return_dict mode.  Assertion failures and attribute access
on absent (None) tensors are modelled as `none`; the slct-size assertion of
line 720 is modelled by comparing the flattened selection lengths, which
determine the viewed shapes. -/
noncomputable def composeLosses (a : DistillArgs) : Option StudentOutputs :=
  let mlmLoss : Option ℝ := match a.labels with
    | none => none
    | some l => some (crossEntropyLoss a.predictionLogits.flatten l.flatten)
  match a.causalTLogits with
  | none =>
    match a.tLogits with
    | none => some ⟨mlmLoss, a.predictionLogits, []⟩
    | some t =>
      match a.tHiddenStates with
      | none => none
      | some tHid =>
        if shape3 a.predictionLogits = shape3 t then
          if (maskedSelectExpand a.predictionLogits
                (ceMask a.restrictCeToMask a.lmLabels a.attentionMask)).length =
              (maskedSelectExpand t
                (ceMask a.restrictCeToMask a.lmLabels a.attentionMask)).length then
            let mask := ceMask a.restrictCeToMask a.lmLabels a.attentionMask
            let v := lastDim a.predictionLogits
            let sSlct := selectRows a.predictionLogits mask v
            let tSlct := selectRows t mask v
            let terms0 := dictInsert [] "loss_ce" (lossCe sSlct tSlct a.temperature)
            let terms1 := if 0 < a.alphaMlm then
                dictInsert terms0 "loss_mlm" (lossMlmTerm a.predictionLogits a.lmLabels)
              else terms0
            let terms2 := if 0 < a.alphaClm then
                dictInsert terms1 "loss_mlm" (lossClmTerm a.predictionLogits a.lmLabels)
              else terms1
            let terms3 := if 0 < a.alphaMse then
                dictInsert terms2 "loss_mse"
                  (mseSum sSlct tSlct / (sSlct.length : ℝ))
              else terms2
            if 0 < a.alphaCos then
              match a.hiddenStates with
              | none => none
              | some sHid =>
                if shape3 (sHid.getLastD []) = shape3 (tHid.getLastD []) then
                  some ⟨mlmLoss, a.predictionLogits,
                    dictInsert terms3 "loss_cos"
                      (lossCosTerm (sHid.getLastD []) (tHid.getLastD [])
                        a.attentionMask)⟩
                else none
            else some ⟨mlmLoss, a.predictionLogits, terms3⟩
          else none
        else none
  | some ct =>
    match a.tLogits, a.tHiddenStates, a.sLogitsArg, a.sHiddenStatesArg,
        a.causalTHiddenStates with
    | some _, some _, some _, some _, some ctHid =>
      if shape3 a.predictionLogits = shape3 ct then
        if (maskedSelectExpand a.predictionLogits
              (ceMask a.restrictCeToMask a.lmLabels a.attentionMask)).length =
            (maskedSelectExpand ct
              (ceMask a.restrictCeToMask a.lmLabels a.attentionMask)).length then
          match a.hiddenStates with
          | none => none
          | some sHid =>
            if shape3 (sHid.getLastD []) = shape3 (ctHid.getLastD []) then
              some ⟨mlmLoss, a.predictionLogits,
                dictInsert
                  (dictInsert [] "causal_loss_ce"
                    (lossCe
                      (selectRows a.predictionLogits
                        (ceMask a.restrictCeToMask a.lmLabels a.attentionMask)
                        (lastDim a.predictionLogits))
                      (selectRows ct
                        (ceMask a.restrictCeToMask a.lmLabels a.attentionMask)
                        (lastDim a.predictionLogits))
                      a.temperature))
                  "causal_loss_cos"
                  (lossCosTerm (sHid.getLastD []) (ctHid.getLastD [])
                    a.attentionMask)⟩
            else none
        else none
      else none
    | _, _, _, _, _ => none

/-- Specification-side plain encoder loop: just fold the blocks over the
hidden state, with no interchange anywhere. -/
def plainForward (blocks : List (T3 → T3)) (outputHiddenStates : Bool) (x : T3) :
    T3 × Option (List T3) :=
  match blocks.foldl
      (fun acc blk =>
        (blk acc.1, if outputHiddenStates then acc.2 ++ [acc.1] else acc.2))
      (x, []) with
  | (h, all) => (h, if outputHiddenStates then some (all ++ [h]) else none)

/-! ### Lemmas about the loss-term mapping -/

theorem find?_dictMap_self (k : String) (v : ℝ) :
    ∀ d : List (String × ℝ), d.any (fun p => p.1 == k) = true →
      (d.map (fun p => if p.1 == k then (k, v) else p)).find? (fun p => p.1 == k) =
        some (k, v) := by
  intro d
  induction d with
  | nil => intro h; simp at h
  | cons p ps ih =>
    intro h
    by_cases hp : p.1 = k
    · simp [hp]
    · have h2 : ps.any (fun q => q.1 == k) = true := by simpa [hp] using h
      simpa [hp] using ih h2

theorem find?_append_self (k : String) (v : ℝ) :
    ∀ d : List (String × ℝ), d.any (fun p => p.1 == k) = false →
      (d ++ [(k, v)]).find? (fun p => p.1 == k) = some (k, v) := by
  intro d
  induction d with
  | nil => intro h; simp
  | cons p ps ih =>
    intro h
    have hp : ¬ p.1 = k := by
      intro he
      simp [he] at h
    have h2 : ps.any (fun q => q.1 == k) = false := by simpa [hp] using h
    simpa [hp] using ih h2

theorem getTerm_dictInsert_self (d : List (String × ℝ)) (k : String) (v : ℝ) :
    getTerm (dictInsert d k v) k = some v := by
  unfold getTerm dictInsert
  by_cases h : d.any (fun p => p.1 == k) = true
  · rw [if_pos h, find?_dictMap_self k v d h]
    rfl
  · rw [if_neg h, find?_append_self k v d (Bool.eq_false_iff.mpr h)]
    rfl

theorem find?_dictMap_ne (k k2 : String) (v : ℝ) (hne : k2 ≠ k) :
    ∀ d : List (String × ℝ),
      (d.map (fun p => if p.1 == k2 then (k2, v) else p)).find? (fun p => p.1 == k) =
        d.find? (fun p => p.1 == k) := by
  intro d
  induction d with
  | nil => rfl
  | cons p ps ih =>
    rw [List.map_cons]
    by_cases hp2 : p.1 = k2
    · have hpk : ¬ p.1 = k := by
        intro he
        rw [hp2] at he
        exact hne he
      rw [if_pos (by simp [hp2])]
      rw [List.find?_cons_of_neg _ (by simp [hne]), List.find?_cons_of_neg _ (by simp [hpk]),
        ih]
    · rw [if_neg (by simp [hp2])]
      by_cases hpk : p.1 = k
      · rw [List.find?_cons_of_pos _ (by simp [hpk]), List.find?_cons_of_pos _ (by simp [hpk])]
      · rw [List.find?_cons_of_neg _ (by simp [hpk]), List.find?_cons_of_neg _ (by simp [hpk]),
          ih]

theorem find?_append_ne (k k2 : String) (v : ℝ) (hne : k2 ≠ k) :
    ∀ d : List (String × ℝ),
      (d ++ [(k2, v)]).find? (fun p => p.1 == k) = d.find? (fun p => p.1 == k) := by
  intro d
  induction d with
  | nil => simp [hne]
  | cons p ps ih =>
    by_cases hp : p.1 = k
    · simp [hp]
    · simp [hp, ih]

theorem getTerm_dictInsert_ne (d : List (String × ℝ)) (k k2 : String) (v : ℝ)
    (hne : k2 ≠ k) :
    getTerm (dictInsert d k2 v) k = getTerm d k := by
  unfold getTerm dictInsert
  by_cases h : d.any (fun p => p.1 == k2) = true
  · rw [if_pos h, find?_dictMap_ne k k2 v hne d]
  · rw [if_neg h, find?_append_ne k k2 v hne d]

theorem getTerm_ite_dictInsert_ne (c : Prop) [Decidable c] (d : List (String × ℝ))
    (k k2 : String) (v : ℝ) (hne : k2 ≠ k) :
    getTerm (if c then dictInsert d k2 v else d) k = getTerm d k := by
  by_cases hc : c
  · rw [if_pos hc, getTerm_dictInsert_ne d k k2 v hne]
  · rw [if_neg hc]

theorem hasTerm_dictInsert_ne (d : List (String × ℝ)) (k k2 : String) (v : ℝ)
    (hne : k2 ≠ k) (h : hasTerm d k = false) :
    hasTerm (dictInsert d k2 v) k = false := by
  unfold hasTerm at h ⊢
  unfold dictInsert
  by_cases h2 : d.any (fun p => p.1 == k2) = true
  · rw [if_pos h2, List.any_map]
    rw [List.any_eq_false] at h ⊢
    intro p hp
    by_cases hp2 : p.1 = k2
    · simp [Function.comp, hp2, hne]
    · have h3 := h p hp
      simp [Function.comp, hp2]
      simpa using h3
  · rw [if_neg h2, List.any_append, h]
    simp [hne]

theorem hasTerm_ite_dictInsert_ne (c : Prop) [Decidable c] (d : List (String × ℝ))
    (k k2 : String) (v : ℝ) (hne : k2 ≠ k) (h : hasTerm d k = false) :
    hasTerm (if c then dictInsert d k2 v else d) k = false := by
  by_cases hc : c
  · rw [if_pos hc]
    exact hasTerm_dictInsert_ne d k k2 v hne h
  · rw [if_neg hc]
    exact h

theorem hasTerm_dictInsert_self (d : List (String × ℝ)) (k : String) (v : ℝ) :
    hasTerm (dictInsert d k v) k = true := by
  unfold hasTerm dictInsert
  by_cases h : d.any (fun p => p.1 == k) = true
  · rw [if_pos h, List.any_map]
    rcases List.any_eq_true.mp h with ⟨p, hp, hpk⟩
    apply List.any_eq_true.mpr
    refine ⟨p, hp, ?_⟩
    simp only [Function.comp]
    rw [if_pos hpk]
    simp
  · rw [if_neg h, List.any_append]
    simp

theorem hasTerm_dictInsert_ne_of_true (d : List (String × ℝ)) (k k2 : String) (v : ℝ)
    (hne : k2 ≠ k) (h : hasTerm d k = true) :
    hasTerm (dictInsert d k2 v) k = true := by
  unfold hasTerm at h ⊢
  unfold dictInsert
  by_cases h2 : d.any (fun p => p.1 == k2) = true
  · rw [if_pos h2, List.any_map]
    rcases List.any_eq_true.mp h with ⟨p, hp, hpk⟩
    apply List.any_eq_true.mpr
    refine ⟨p, hp, ?_⟩
    simp only [Function.comp]
    have hpk2 : ¬ (p.1 == k2) = true := by
      simp only [beq_iff_eq] at hpk ⊢
      rw [hpk]
      intro hkk
      exact hne hkk.symm
    rw [if_neg hpk2]
    exact hpk
  · rw [if_neg h2, List.any_append, h]
    rfl

theorem hasTerm_ite_dictInsert_ne_of_true (c : Prop) [Decidable c]
    (d : List (String × ℝ)) (k k2 : String) (v : ℝ) (hne : k2 ≠ k)
    (h : hasTerm d k = true) :
    hasTerm (if c then dictInsert d k2 v else d) k = true := by
  by_cases hc : c
  · rw [if_pos hc]
    exact hasTerm_dictInsert_ne_of_true d k k2 v hne h
  · rw [if_neg hc]
    exact h

/-! ### The masked-select / view refinement -/

theorem selectMask_subset {α : Type} (l : List α) (m : List Bool) :
    ∀ d ∈ selectMask l m, d ∈ l := by
  intro d hd
  unfold selectMask at hd
  rcases List.mem_map.mp hd with ⟨p, hp, hpd⟩
  exact hpd ▸ (List.of_mem_zip (List.mem_of_mem_filter hp)).1

theorem toRowsGo_flatten (v : ℕ) (hv : 0 < v) :
    ∀ (rows : List (List ℝ)) (fuel : ℕ), (∀ r ∈ rows, r.length = v) →
      rows.length ≤ fuel → toRowsGo v fuel rows.flatten = rows := by
  intro rows
  induction rows with
  | nil =>
    intro fuel _ _
    cases fuel with
    | zero => rfl
    | succ f => rfl
  | cons r rs ih =>
    intro fuel hrows hfuel
    cases fuel with
    | zero => simp at hfuel
    | succ f =>
      have hr : r.length = v := hrows r (List.mem_cons_self r rs)
      have hne : r ≠ [] := by
        intro h
        rw [h] at hr
        simp at hr
        omega
      obtain ⟨a, r2, rfl⟩ : ∃ a r2, r = a :: r2 := by
        cases r with
        | nil => exact absurd rfl hne
        | cons a r2 => exact ⟨a, r2, rfl⟩
      show toRowsGo v (f + 1) ((a :: r2) ++ rs.flatten) = (a :: r2) :: rs
      have hstep : toRowsGo v (f + 1) ((a :: r2) ++ rs.flatten) =
          ((a :: r2) ++ rs.flatten).take v ::
            toRowsGo v f (((a :: r2) ++ rs.flatten).drop v) := rfl
      rw [hstep, List.take_left' hr, List.drop_left' hr,
        ih f (fun q hq => hrows q (List.mem_cons_of_mem _ hq)) (by simpa using hfuel)]

theorem toRows_flatten (v : ℕ) (hv : 0 < v) (rows : List (List ℝ))
    (hrows : ∀ r ∈ rows, r.length = v) :
    toRows v rows.flatten = rows := by
  apply toRowsGo_flatten v hv rows rows.flatten.length hrows
  have h1 : rows.flatten.length = rows.length * v := by
    rw [List.length_flatten]
    have h2 : rows.map List.length = List.replicate rows.length v := by
      apply List.eq_replicate_iff.mpr
      refine ⟨by simp, ?_⟩
      intro b hb
      rcases List.mem_map.mp hb with ⟨q, hq, hqb⟩
      rw [← hqb]
      exact hrows q hq
    rw [h2, List.sum_replicate, smul_eq_mul]
  rw [h1]
  exact Nat.le_mul_of_pos_right _ hv

theorem maskedSelectExpand_eq_spec (x : T3) (m : Mask2) :
    maskedSelectExpand x m = (specSelectedRows x m).flatten := by
  unfold maskedSelectExpand specSelectedRows
  induction x generalizing m with
  | nil => rfl
  | cons xb xs ih =>
    cases m with
    | nil => rfl
    | cons mb ms =>
      simp only [List.zip_cons_cons, List.map_cons, List.flatten_cons,
        List.flatten_append]
      rw [ih ms]

theorem specSelectedRows_sublists (x : T3) (m : Mask2) :
    ∀ r ∈ specSelectedRows x m, ∃ ex ∈ x, r ∈ ex := by
  intro r hr
  unfold specSelectedRows at hr
  rcases List.mem_flatten.mp hr with ⟨rowList, hrl, hrr⟩
  rcases List.mem_map.mp hrl with ⟨bm, hbm, hbml⟩
  exact ⟨bm.1, (List.of_mem_zip hbm).1, selectMask_subset bm.1 bm.2 r (hbml ▸ hrr)⟩

theorem selectRows_eq_spec (x : T3) (m : Mask2) (v : ℕ) (hv : 0 < v)
    (hx : ∀ ex ∈ x, ∀ r ∈ ex, r.length = v) :
    selectRows x m v = specSelectedRows x m := by
  unfold selectRows
  rw [maskedSelectExpand_eq_spec]
  apply toRows_flatten v hv
  intro r hr
  rcases specSelectedRows_sublists x m r hr with ⟨ex, hex, hrex⟩
  exact hx ex hex r hrex

/-! ### Softmax and KL lemmas -/

theorem sumExp_pos (r : List ℝ) (h : r ≠ []) : 0 < sumExp r := by
  cases r with
  | nil => exact absurd rfl h
  | cons x xs =>
    unfold sumExp
    rw [List.map_cons, List.sum_cons]
    have h1 : 0 ≤ (xs.map Real.exp).sum := by
      apply List.sum_nonneg
      intro y hy
      rcases List.mem_map.mp hy with ⟨z, _, hz⟩
      exact hz ▸ (Real.exp_pos z).le
    have h2 := Real.exp_pos x
    linarith

theorem klPointwise_eq_klDiv (sr tr : List ℝ) :
    klPointwise (logSoftmaxRow sr) (softmaxRow tr) =
      klDiv (softmaxRow tr) (softmaxRow sr) := by
  unfold klPointwise klDiv logSoftmaxRow softmaxRow
  rw [List.zip_map, List.zip_map, List.map_map, List.map_map]
  refine congrArg List.sum ?_
  apply List.map_congr_left
  intro p hp
  obtain ⟨y, x⟩ := p
  have hy : y ∈ tr := (List.of_mem_zip hp).1
  have hx : x ∈ sr := (List.of_mem_zip hp).2
  have hSb : 0 < sumExp tr := sumExp_pos tr (List.ne_nil_of_mem hy)
  have hSa : 0 < sumExp sr := sumExp_pos sr (List.ne_nil_of_mem hx)
  show Real.exp y / sumExp tr *
      (Real.log (Real.exp y / sumExp tr) - (x - Real.log (sumExp sr))) =
    Real.exp y / sumExp tr *
      Real.log ((Real.exp y / sumExp tr) / (Real.exp x / sumExp sr))
  have hb : (0 : ℝ) < Real.exp y / sumExp tr := div_pos (Real.exp_pos y) hSb
  have ha : (0 : ℝ) < Real.exp x / sumExp sr := div_pos (Real.exp_pos x) hSa
  rw [Real.log_div (ne_of_gt hb) (ne_of_gt ha),
    Real.log_div (Real.exp_ne_zero x) (ne_of_gt hSa), Real.log_exp]

theorem klDivLossBatchmean_map (sRows tRows : List (List ℝ)) :
    klDivLossBatchmean (sRows.map logSoftmaxRow) (tRows.map softmaxRow) =
      ((sRows.zip tRows).map
        (fun p => klDiv (softmaxRow p.2) (softmaxRow p.1))).sum /
        (sRows.length : ℝ) := by
  unfold klDivLossBatchmean
  rw [List.zip_map, List.map_map]
  have hmap : ((sRows.zip tRows).map
      ((fun p => klPointwise p.1 p.2) ∘ Prod.map logSoftmaxRow softmaxRow)) =
      (sRows.zip tRows).map (fun p => klDiv (softmaxRow p.2) (softmaxRow p.1)) := by
    apply List.map_congr_left
    intro p hp
    exact klPointwise_eq_klDiv p.1 p.2
  rw [hmap]
  congr 1
  simp

theorem zip_self_map {α : Type} (l : List α) : l.zip l = l.map (fun x => (x, x)) := by
  induction l with
  | nil => rfl
  | cons x xs ih => simp [ih]

theorem klPointwise_self (r : List ℝ) :
    klPointwise (logSoftmaxRow r) (softmaxRow r) = 0 := by
  cases hr : r with
  | nil => simp [klPointwise, logSoftmaxRow, softmaxRow]
  | cons x0 xs =>
    rw [← hr]
    have hS : 0 < sumExp r := sumExp_pos r (by rw [hr]; exact List.cons_ne_nil x0 xs)
    unfold klPointwise logSoftmaxRow softmaxRow
    rw [List.zip_map, zip_self_map, List.map_map, List.map_map]
    apply List.sum_eq_zero
    intro y hy
    rcases List.mem_map.mp hy with ⟨x, _, hx⟩
    rw [← hx]
    show Real.exp x / sumExp r *
        (Real.log (Real.exp x / sumExp r) - (x - Real.log (sumExp r))) = 0
    rw [Real.log_div (Real.exp_ne_zero x) (ne_of_gt hS), Real.log_exp]
    ring

theorem lossCe_self (x : List (List ℝ)) (temperature : ℝ) :
    lossCe x x temperature = 0 := by
  unfold lossCe klDivLossBatchmean
  rw [List.zip_map, zip_self_map, List.map_map, List.map_map]
  apply mul_eq_zero_of_left
  refine div_eq_zero_iff.mpr (Or.inl ?_)
  apply List.sum_eq_zero
  intro y hy
  rcases List.mem_map.mp hy with ⟨r, _, hry⟩
  rw [← hry]
  exact klPointwise_self (r.map (fun q => q / temperature))

/-! ### Theorems -/

theorem klDivLossBatchmean_map2 (f : List ℝ → List ℝ) (sRows tRows : List (List ℝ)) :
    klDivLossBatchmean (sRows.map (fun r => logSoftmaxRow (f r)))
      (tRows.map (fun r => softmaxRow (f r))) =
      ((sRows.zip tRows).map
        (fun p => klDiv (softmaxRow (f p.2)) (softmaxRow (f p.1)))).sum /
        (sRows.length : ℝ) := by
  unfold klDivLossBatchmean
  rw [List.zip_map, List.map_map]
  have hmap : ((sRows.zip tRows).map
      ((fun p => klPointwise p.1 p.2) ∘
        Prod.map (fun r => logSoftmaxRow (f r)) (fun r => softmaxRow (f r)))) =
      (sRows.zip tRows).map
        (fun p => klDiv (softmaxRow (f p.2)) (softmaxRow (f p.1))) := by
    apply List.map_congr_left
    intro p hp
    exact klPointwise_eq_klDiv (f p.1) (f p.2)
  rw [hmap]
  congr 1
  simp

/-- C2: when teacher logits are supplied in non-causal mode, the computed
soft-target loss "loss_ce" equals the mean, over the mask-selected positions
(gold-label mask when restrict_ce_to_mask is true, attention mask otherwise),
of the KL divergence between the temperature-scaled teacher softmax and the
temperature-scaled student softmax, multiplied by temperature squared. -/
theorem soft_target_loss_formula (a : DistillArgs) (t : T3) (vocab : ℕ)
    (hcaus : a.causalTLogits = none)
    (ht : a.tLogits = some t)
    (hvpos : 0 < vocab)
    (hvdim : lastDim a.predictionLogits = vocab)
    (hsv : ∀ ex ∈ a.predictionLogits, ∀ r ∈ ex, r.length = vocab)
    (htv : ∀ ex ∈ t, ∀ r ∈ ex, r.length = vocab) :
    (composeLosses a).elim True (fun o =>
      getTerm o.lossTerms "loss_ce" =
        some ((((specSelectedRows a.predictionLogits
              (ceMask a.restrictCeToMask a.lmLabels a.attentionMask)).zip
            (specSelectedRows t
              (ceMask a.restrictCeToMask a.lmLabels a.attentionMask))).map
          (fun p => klDiv (softmaxRow (p.2.map (fun q => q / a.temperature)))
            (softmaxRow (p.1.map (fun q => q / a.temperature))))).sum /
          ((specSelectedRows a.predictionLogits
            (ceMask a.restrictCeToMask a.lmLabels a.attentionMask)).length : ℝ) *
          a.temperature ^ 2)) := by
  have hval : lossCe
      (selectRows a.predictionLogits
        (ceMask a.restrictCeToMask a.lmLabels a.attentionMask)
        (lastDim a.predictionLogits))
      (selectRows t
        (ceMask a.restrictCeToMask a.lmLabels a.attentionMask)
        (lastDim a.predictionLogits))
      a.temperature =
      (((specSelectedRows a.predictionLogits
            (ceMask a.restrictCeToMask a.lmLabels a.attentionMask)).zip
          (specSelectedRows t
            (ceMask a.restrictCeToMask a.lmLabels a.attentionMask))).map
        (fun p => klDiv (softmaxRow (p.2.map (fun q => q / a.temperature)))
          (softmaxRow (p.1.map (fun q => q / a.temperature))))).sum /
        ((specSelectedRows a.predictionLogits
          (ceMask a.restrictCeToMask a.lmLabels a.attentionMask)).length : ℝ) *
        a.temperature ^ 2 := by
    rw [hvdim, selectRows_eq_spec _ _ _ hvpos hsv, selectRows_eq_spec _ _ _ hvpos htv]
    unfold lossCe
    rw [klDivLossBatchmean_map2 (fun r => r.map (fun q => q / a.temperature))]
  simp only [composeLosses, hcaus, ht]
  cases hth : a.tHiddenStates with
  | none => simp
  | some tHid =>
    simp only [Option.elim]
    by_cases hsh : shape3 a.predictionLogits = shape3 t
    · rw [if_pos hsh]
      by_cases hflat : (maskedSelectExpand a.predictionLogits
          (ceMask a.restrictCeToMask a.lmLabels a.attentionMask)).length =
          (maskedSelectExpand t
            (ceMask a.restrictCeToMask a.lmLabels a.attentionMask)).length
      · rw [if_pos hflat]
        by_cases hcos : 0 < a.alphaCos
        · rw [if_pos hcos]
          cases hhid : a.hiddenStates with
          | none => simp
          | some sHid =>
            simp only [Option.elim]
            by_cases hsh2 : shape3 (sHid.getLastD []) = shape3 (tHid.getLastD [])
            · rw [if_pos hsh2]
              simp only [Option.elim]
              rw [getTerm_dictInsert_ne _ _ _ _ (by decide),
                getTerm_ite_dictInsert_ne _ _ _ _ _ (by decide),
                getTerm_ite_dictInsert_ne _ _ _ _ _ (by decide),
                getTerm_ite_dictInsert_ne _ _ _ _ _ (by decide),
                getTerm_dictInsert_self, hval]
            · rw [if_neg hsh2]
              simp
        · rw [if_neg hcos]
          simp only [Option.elim]
          rw [getTerm_ite_dictInsert_ne _ _ _ _ _ (by decide),
            getTerm_ite_dictInsert_ne _ _ _ _ _ (by decide),
            getTerm_ite_dictInsert_ne _ _ _ _ _ (by decide),
            getTerm_dictInsert_self, hval]
      · rw [if_neg hflat]
        simp
    · rw [if_neg hsh]
      simp

/-- Concrete argument bundle used by several witnesses: one batch example,
one sequence position, vocabulary size two, teacher logits supplied. -/
noncomputable def c2args : DistillArgs :=
  ⟨[[[1, 2]]], none, none, [[true]], some [[[0, 1]]], some [], none, none, none, none,
    2, false, [[0]], 0, 0, 0, 0⟩

/-- Witness for C2 at the concrete arguments `c2args`. -/
theorem soft_target_loss_formula_witness :
    (composeLosses c2args).elim True (fun o =>
      getTerm o.lossTerms "loss_ce" =
        some ((((specSelectedRows c2args.predictionLogits
              (ceMask c2args.restrictCeToMask c2args.lmLabels c2args.attentionMask)).zip
            (specSelectedRows [[[0, 1]]]
              (ceMask c2args.restrictCeToMask c2args.lmLabels c2args.attentionMask))).map
          (fun p => klDiv (softmaxRow (p.2.map (fun q => q / c2args.temperature)))
            (softmaxRow (p.1.map (fun q => q / c2args.temperature))))).sum /
          ((specSelectedRows c2args.predictionLogits
            (ceMask c2args.restrictCeToMask c2args.lmLabels c2args.attentionMask)).length : ℝ) *
          c2args.temperature ^ 2)) :=
  soft_target_loss_formula c2args [[[0, 1]]] 2 rfl rfl (by decide) rfl
    (by simp [c2args]) (by simp)

/-- C6: when the supplied teacher logits equal the student logits exactly and
the temperature is 1, the computed soft-target loss is exactly zero. -/
theorem equal_logits_zero_soft_target_loss (a : DistillArgs)
    (hcaus : a.causalTLogits = none)
    (ht : a.tLogits = some a.predictionLogits)
    (htemp : a.temperature = 1) :
    (composeLosses a).elim True
      (fun o => getTerm o.lossTerms "loss_ce" = some 0) := by
  simp only [composeLosses, hcaus, ht]
  cases hth : a.tHiddenStates with
  | none => simp
  | some tHid =>
    simp only [Option.elim]
    simp only [if_true]
    by_cases hcos : 0 < a.alphaCos
    · rw [if_pos hcos]
      cases hhid : a.hiddenStates with
      | none => simp
      | some sHid =>
        simp only [Option.elim]
        by_cases hsh2 : shape3 (sHid.getLastD []) = shape3 (tHid.getLastD [])
        · rw [if_pos hsh2]
          simp only [Option.elim]
          rw [getTerm_dictInsert_ne _ _ _ _ (by decide),
            getTerm_ite_dictInsert_ne _ _ _ _ _ (by decide),
            getTerm_ite_dictInsert_ne _ _ _ _ _ (by decide),
            getTerm_ite_dictInsert_ne _ _ _ _ _ (by decide),
            getTerm_dictInsert_self, lossCe_self]
        · rw [if_neg hsh2]
          simp
    · rw [if_neg hcos]
      simp only [Option.elim]
      rw [getTerm_ite_dictInsert_ne _ _ _ _ _ (by decide),
        getTerm_ite_dictInsert_ne _ _ _ _ _ (by decide),
        getTerm_ite_dictInsert_ne _ _ _ _ _ (by decide),
        getTerm_dictInsert_self, lossCe_self]

/-- Concrete argument bundle for the C6 witness: teacher logits equal to the
student prediction logits, temperature 1. -/
noncomputable def c6args : DistillArgs :=
  ⟨[[[1, 2]]], none, none, [[true]], some [[[1, 2]]], some [], none, none, none, none,
    1, false, [[0]], 0, 0, 0, 0⟩

/-- Witness for C6 at the concrete arguments `c6args`. -/
theorem equal_logits_zero_soft_target_loss_witness :
    (composeLosses c6args).elim True
      (fun o => getTerm o.lossTerms "loss_ce" = some 0) :=
  equal_logits_zero_soft_target_loss c6args rfl rfl rfl

/-- C10: in non-causal mode with teacher logits supplied and both alpha_mlm
and alpha_clm positive, the output mapping contains no separate causal-LM
key: the shifted causal-LM cross entropy is stored under the "loss_mlm" key,
overwriting the just-computed masked-LM value. -/
theorem clm_overwrites_mlm (a : DistillArgs) (t : T3)
    (hcaus : a.causalTLogits = none)
    (ht : a.tLogits = some t)
    (hmlm : 0 < a.alphaMlm)
    (hclm : 0 < a.alphaClm) :
    (composeLosses a).elim True (fun o =>
      getTerm o.lossTerms "loss_mlm" =
        some (lossClmTerm a.predictionLogits a.lmLabels) ∧
      hasTerm o.lossTerms "loss_clm" = false ∧
      hasTerm o.lossTerms "causal_loss_ce" = false) := by
  simp only [composeLosses, hcaus, ht]
  cases hth : a.tHiddenStates with
  | none => simp
  | some tHid =>
    simp only [Option.elim]
    by_cases hsh : shape3 a.predictionLogits = shape3 t
    · rw [if_pos hsh]
      by_cases hflat : (maskedSelectExpand a.predictionLogits
          (ceMask a.restrictCeToMask a.lmLabels a.attentionMask)).length =
          (maskedSelectExpand t
            (ceMask a.restrictCeToMask a.lmLabels a.attentionMask)).length
      · rw [if_pos hflat]
        by_cases hcos : 0 < a.alphaCos
        · rw [if_pos hcos]
          cases hhid : a.hiddenStates with
          | none => simp
          | some sHid =>
            simp only [Option.elim]
            by_cases hsh2 : shape3 (sHid.getLastD []) = shape3 (tHid.getLastD [])
            · rw [if_pos hsh2]
              simp only [Option.elim]
              refine ⟨?_, ?_, ?_⟩
              · rw [getTerm_dictInsert_ne _ _ _ _ (by decide),
                  getTerm_ite_dictInsert_ne _ _ _ _ _ (by decide),
                  if_pos hclm, getTerm_dictInsert_self]
              · apply hasTerm_dictInsert_ne _ _ _ _ (by decide)
                apply hasTerm_ite_dictInsert_ne _ _ _ _ _ (by decide)
                apply hasTerm_ite_dictInsert_ne _ _ _ _ _ (by decide)
                apply hasTerm_ite_dictInsert_ne _ _ _ _ _ (by decide)
                apply hasTerm_dictInsert_ne _ _ _ _ (by decide)
                rfl
              · apply hasTerm_dictInsert_ne _ _ _ _ (by decide)
                apply hasTerm_ite_dictInsert_ne _ _ _ _ _ (by decide)
                apply hasTerm_ite_dictInsert_ne _ _ _ _ _ (by decide)
                apply hasTerm_ite_dictInsert_ne _ _ _ _ _ (by decide)
                apply hasTerm_dictInsert_ne _ _ _ _ (by decide)
                rfl
            · rw [if_neg hsh2]
              simp
        · rw [if_neg hcos]
          simp only [Option.elim]
          refine ⟨?_, ?_, ?_⟩
          · rw [getTerm_ite_dictInsert_ne _ _ _ _ _ (by decide),
              if_pos hclm, getTerm_dictInsert_self]
          · apply hasTerm_ite_dictInsert_ne _ _ _ _ _ (by decide)
            apply hasTerm_ite_dictInsert_ne _ _ _ _ _ (by decide)
            apply hasTerm_ite_dictInsert_ne _ _ _ _ _ (by decide)
            apply hasTerm_dictInsert_ne _ _ _ _ (by decide)
            rfl
          · apply hasTerm_ite_dictInsert_ne _ _ _ _ _ (by decide)
            apply hasTerm_ite_dictInsert_ne _ _ _ _ _ (by decide)
            apply hasTerm_ite_dictInsert_ne _ _ _ _ _ (by decide)
            apply hasTerm_dictInsert_ne _ _ _ _ (by decide)
            rfl
      · rw [if_neg hflat]
        simp
    · rw [if_neg hsh]
      simp

/-- Concrete argument bundle for the C10 witness: both alpha_mlm and
alpha_clm positive. -/
noncomputable def c10args : DistillArgs :=
  ⟨[[[1, 2]]], none, none, [[true]], some [[[0, 1]]], some [], none, none, none, none,
    2, false, [[0]], 1, 1, 0, 0⟩

/-- Witness for C10 at the concrete arguments `c10args`. -/
theorem clm_overwrites_mlm_witness :
    (composeLosses c10args).elim True (fun o =>
      getTerm o.lossTerms "loss_mlm" =
        some (lossClmTerm c10args.predictionLogits c10args.lmLabels) ∧
      hasTerm o.lossTerms "loss_clm" = false ∧
      hasTerm o.lossTerms "causal_loss_ce" = false) :=
  clm_overwrites_mlm c10args [[[0, 1]]] rfl rfl (by decide) (by decide)

theorem foldl_enumFrom_none (headDimension : ℕ) (iv : List T3) (im dm : List Bool)
    (ohs : Bool) :
    ∀ (l : List (T3 → T3)) (n : ℕ) (acc : T3 × List T3),
      (List.enumFrom n l).foldl
        (transformerFoldStep headDimension iv none im dm ohs) acc =
      l.foldl (fun acc2 blk =>
        (blk acc2.1, if ohs then acc2.2 ++ [acc2.1] else acc2.2)) acc := by
  intro l
  induction l with
  | nil => intro n acc; rfl
  | cons b bs ih =>
    intro n acc
    rw [List.enumFrom_cons, List.foldl_cons, List.foldl_cons, ih]
    rfl

/-- C8 (amended): each absent optional input skips its work: no labels means
no masked-LM loss field; no teacher logits means no soft-target loss key;
zero alpha_mse / alpha_cos means no loss_mse / loss_cos key; the loss_mlm
key is absent when alpha_mlm and alpha_clm are both zero, but because the
causal-LM loss is stored under the same key, loss_mlm is present whenever
alpha_clm is positive and any loss terms were produced; and with no
interchange specification the forward pass is the plain block fold with no
hidden-state mutation. -/
theorem absent_inputs_skip_work (a : DistillArgs)
    (blocks : List (T3 → T3)) (headDimension : ℕ) (outputHiddenStates : Bool)
    (interchangedVariables : List T3) (im dm : List Bool) (x : T3) :
    (composeLosses a).elim True (fun o =>
      (a.labels = none → o.loss = none) ∧
      (a.tLogits = none → hasTerm o.lossTerms "loss_ce" = false ∧
        hasTerm o.lossTerms "causal_loss_ce" = false) ∧
      (a.alphaMlm = 0 → a.alphaClm = 0 → hasTerm o.lossTerms "loss_mlm" = false) ∧
      (a.alphaMse = 0 → hasTerm o.lossTerms "loss_mse" = false) ∧
      (a.alphaCos = 0 → hasTerm o.lossTerms "loss_cos" = false) ∧
      (0 < a.alphaClm → a.causalTLogits = none →
        (o.lossTerms = [] ∨ hasTerm o.lossTerms "loss_mlm" = true))) ∧
    Transformer.forward blocks headDimension outputHiddenStates interchangedVariables
      none im dm x = plainForward blocks outputHiddenStates x := by
  constructor
  · simp only [composeLosses]
    cases hc : a.causalTLogits with
    | none =>
      cases htl : a.tLogits with
      | none =>
        simp only [Option.elim]
        refine ⟨?_, ?_, ?_, ?_, ?_, ?_⟩
        · intro hlab; simp [hlab]
        · intro _; exact ⟨rfl, rfl⟩
        · intro _ _; rfl
        · intro _; rfl
        · intro _; rfl
        · intro _ _; simp
      | some t =>
        cases hth : a.tHiddenStates with
        | none => simp
        | some tHid =>
          simp only [Option.elim]
          by_cases hsh : shape3 a.predictionLogits = shape3 t
          · rw [if_pos hsh]
            by_cases hflat : (maskedSelectExpand a.predictionLogits
                (ceMask a.restrictCeToMask a.lmLabels a.attentionMask)).length =
                (maskedSelectExpand t
                  (ceMask a.restrictCeToMask a.lmLabels a.attentionMask)).length
            · rw [if_pos hflat]
              by_cases hcos : 0 < a.alphaCos
              · rw [if_pos hcos]
                cases hhid : a.hiddenStates with
                | none => simp
                | some sHid =>
                  simp only [Option.elim]
                  by_cases hsh2 : shape3 (sHid.getLastD []) =
                      shape3 (tHid.getLastD [])
                  · rw [if_pos hsh2]
                    simp only [Option.elim]
                    refine ⟨?_, ?_, ?_, ?_, ?_, ?_⟩
                    · intro hlab; simp [hlab]
                    · intro h2
                      simp at h2
                    · intro h3a h3b
                      apply hasTerm_dictInsert_ne _ _ _ _ (by decide)
                      apply hasTerm_ite_dictInsert_ne _ _ _ _ _ (by decide)
                      rw [if_neg (by simp [h3b]), if_neg (by simp [h3a])]
                      apply hasTerm_dictInsert_ne _ _ _ _ (by decide)
                      rfl
                    · intro h4
                      rw [if_neg (by simp [h4])]
                      apply hasTerm_dictInsert_ne _ _ _ _ (by decide)
                      apply hasTerm_ite_dictInsert_ne _ _ _ _ _ (by decide)
                      apply hasTerm_ite_dictInsert_ne _ _ _ _ _ (by decide)
                      apply hasTerm_dictInsert_ne _ _ _ _ (by decide)
                      rfl
                    · intro h5
                      exact absurd hcos (by simp [h5])
                    · intro hclm _
                      refine Or.inr ?_
                      apply hasTerm_dictInsert_ne_of_true _ _ _ _ (by decide)
                      apply hasTerm_ite_dictInsert_ne_of_true _ _ _ _ _ (by decide)
                      rw [if_pos hclm]
                      exact hasTerm_dictInsert_self _ _ _
                  · rw [if_neg hsh2]
                    simp
              · rw [if_neg hcos]
                simp only [Option.elim]
                refine ⟨?_, ?_, ?_, ?_, ?_, ?_⟩
                · intro hlab; simp [hlab]
                · intro h2
                  simp at h2
                · intro h3a h3b
                  apply hasTerm_ite_dictInsert_ne _ _ _ _ _ (by decide)
                  rw [if_neg (by simp [h3b]), if_neg (by simp [h3a])]
                  apply hasTerm_dictInsert_ne _ _ _ _ (by decide)
                  rfl
                · intro h4
                  rw [if_neg (by simp [h4])]
                  apply hasTerm_ite_dictInsert_ne _ _ _ _ _ (by decide)
                  apply hasTerm_ite_dictInsert_ne _ _ _ _ _ (by decide)
                  apply hasTerm_dictInsert_ne _ _ _ _ (by decide)
                  rfl
                · intro _
                  apply hasTerm_ite_dictInsert_ne _ _ _ _ _ (by decide)
                  apply hasTerm_ite_dictInsert_ne _ _ _ _ _ (by decide)
                  apply hasTerm_ite_dictInsert_ne _ _ _ _ _ (by decide)
                  apply hasTerm_dictInsert_ne _ _ _ _ (by decide)
                  rfl
                · intro hclm _
                  refine Or.inr ?_
                  apply hasTerm_ite_dictInsert_ne_of_true _ _ _ _ _ (by decide)
                  rw [if_pos hclm]
                  exact hasTerm_dictInsert_self _ _ _
            · rw [if_neg hflat]
              simp
          · rw [if_neg hsh]
            simp
    | some ct =>
      cases h1 : a.tLogits with
      | none => simp
      | some tl =>
        cases h2 : a.tHiddenStates with
        | none => simp
        | some th =>
          cases h3 : a.sLogitsArg with
          | none => simp
          | some sl =>
            cases h4 : a.sHiddenStatesArg with
            | none => simp
            | some sh =>
              cases h5 : a.causalTHiddenStates with
              | none => simp
              | some ctHid =>
                simp only [Option.elim]
                by_cases hsh : shape3 a.predictionLogits = shape3 ct
                · rw [if_pos hsh]
                  by_cases hflat : (maskedSelectExpand a.predictionLogits
                      (ceMask a.restrictCeToMask a.lmLabels a.attentionMask)).length =
                      (maskedSelectExpand ct
                        (ceMask a.restrictCeToMask a.lmLabels a.attentionMask)).length
                  · rw [if_pos hflat]
                    cases hhid : a.hiddenStates with
                    | none => simp
                    | some sHid =>
                      simp only [Option.elim]
                      by_cases hsh2 : shape3 (sHid.getLastD []) =
                          shape3 (ctHid.getLastD [])
                      · rw [if_pos hsh2]
                        simp only [Option.elim]
                        refine ⟨?_, ?_, ?_, ?_, ?_, ?_⟩
                        · intro hlab; simp [hlab]
                        · intro hh
                          simp at hh
                        · intro _ _
                          apply hasTerm_dictInsert_ne _ _ _ _ (by decide)
                          apply hasTerm_dictInsert_ne _ _ _ _ (by decide)
                          rfl
                        · intro _
                          apply hasTerm_dictInsert_ne _ _ _ _ (by decide)
                          apply hasTerm_dictInsert_ne _ _ _ _ (by decide)
                          rfl
                        · intro _
                          apply hasTerm_dictInsert_ne _ _ _ _ (by decide)
                          apply hasTerm_dictInsert_ne _ _ _ _ (by decide)
                          rfl
                        · intro _ hcn
                          simp at hcn
                      · rw [if_neg hsh2]
                        simp
                  · rw [if_neg hflat]
                    simp
                · rw [if_neg hsh]
                  simp
  · unfold Transformer.forward plainForward
    rw [show blocks.enum = List.enumFrom 0 blocks from rfl,
      foldl_enumFrom_none headDimension interchangedVariables im dm
        outputHiddenStates blocks 0 (x, [])]

/-- Counterexample bundle for C8 as originally stated: alpha_mlm is zero but
alpha_clm is positive. -/
noncomputable def c8cex : DistillArgs :=
  ⟨[[[1, 2]]], none, none, [[true]], some [[[1, 2]]], some [], none, none, none, none,
    1, false, [[0]], 0, 1, 0, 0⟩

/-- Counterexample to C8 as stated: with alpha_mlm = 0 and alpha_clm = 1 the
output mapping nevertheless contains the "loss_mlm" key (holding the
causal-LM value), so a zero per-term weight does not make the corresponding
loss key absent. -/
theorem weight_zero_key_absent_cex :
    c8cex.alphaMlm = 0 ∧
    (composeLosses c8cex).map (fun o => hasTerm o.lossTerms "loss_mlm") =
      some true :=
  ⟨rfl, rfl⟩

/-- Witness for C8 (amended), instantiated at concrete arguments; the
implications inside are discharged where applicable below. -/
theorem absent_inputs_skip_work_witness :
    (composeLosses c2args).elim True (fun o =>
      (c2args.labels = none → o.loss = none) ∧
      (c2args.tLogits = none → hasTerm o.lossTerms "loss_ce" = false ∧
        hasTerm o.lossTerms "causal_loss_ce" = false) ∧
      (c2args.alphaMlm = 0 → c2args.alphaClm = 0 →
        hasTerm o.lossTerms "loss_mlm" = false) ∧
      (c2args.alphaMse = 0 → hasTerm o.lossTerms "loss_mse" = false) ∧
      (c2args.alphaCos = 0 → hasTerm o.lossTerms "loss_cos" = false) ∧
      (0 < c2args.alphaClm → c2args.causalTLogits = none →
        (o.lossTerms = [] ∨ hasTerm o.lossTerms "loss_mlm" = true))) ∧
    Transformer.forward [fun h => h] 1 false [] none [] [] [[[ (3 : ℝ)]]] =
      plainForward [fun h => h] false [[[ (3 : ℝ)]]] :=
  absent_inputs_skip_work c2args [fun h => h] 1 false [] [] [] [[[ (3 : ℝ)]]]

/-- Unfolded form of `pruneHeads` on a non-empty head set. -/
theorem pruneHeads_eq (m : MultiHeadSelfAttention) (H : Finset ℕ) (h0 : H.card ≠ 0) :
    m.pruneHeads H =
      ⟨m.numAttentionHeads - (H \ m.prunedHeads).card,
       (m.dim / m.numAttentionHeads) * (m.numAttentionHeads - (H \ m.prunedHeads).card),
       (m.qLin.1, (findPruneableHeadsAndIndices H m.numAttentionHeads
          (m.dim / m.numAttentionHeads) m.prunedHeads).2),
       (m.kLin.1, (findPruneableHeadsAndIndices H m.numAttentionHeads
          (m.dim / m.numAttentionHeads) m.prunedHeads).2),
       (m.vLin.1, (findPruneableHeadsAndIndices H m.numAttentionHeads
          (m.dim / m.numAttentionHeads) m.prunedHeads).2),
       ((findPruneableHeadsAndIndices H m.numAttentionHeads
          (m.dim / m.numAttentionHeads) m.prunedHeads).2, m.outLin.2),
       m.prunedHeads ∪ (H \ m.prunedHeads)⟩ := by
  simp [MultiHeadSelfAttention.pruneHeads, h0, findPruneableHeadsAndIndices]

/-- C4: for every attention module and every valid head set H, pruning H and
then pruning H again leaves the module state - pruned-heads set, head count,
effective width and the query/key/value/output projection shapes - exactly
as after the first call. -/
theorem pruneHeads_idempotent (m : MultiHeadSelfAttention) (H : Finset ℕ)
    (hsub : H ⊆ Finset.range m.numAttentionHeads) :
    (m.pruneHeads H).pruneHeads H = m.pruneHeads H := by
  by_cases h0 : H.card = 0
  · simp [MultiHeadSelfAttention.pruneHeads, h0]
  · have hkeep1 : (findPruneableHeadsAndIndices H m.numAttentionHeads
        (m.dim / m.numAttentionHeads) m.prunedHeads).2 =
        (m.dim / m.numAttentionHeads) *
          (m.numAttentionHeads - (H \ m.prunedHeads).card) :=
      findPruneable_keep _ _ _ _ hsub
    rw [pruneHeads_eq m H h0, pruneHeads_eq _ H h0]
    have hHP : H \ (m.prunedHeads ∪ (H \ m.prunedHeads)) = ∅ := by
      ext x
      simp only [Finset.mem_sdiff, Finset.mem_union, Finset.not_mem_empty, iff_false]
      tauto
    simp only [hHP, Finset.card_empty, Nat.sub_zero, Finset.union_empty,
      findPruneableHeadsAndIndices, Finset.image_empty, count_pruneFlatMask]
    have hfilter : ((Finset.range (m.numAttentionHeads - (H \ m.prunedHeads).card)).filter
        (fun r => r ∉ (∅ : Finset ℕ))).card =
        m.numAttentionHeads - (H \ m.prunedHeads).card := by
      simp
    have hc : ((Finset.range m.numAttentionHeads).filter
        (fun r => r ∉ (H \ m.prunedHeads).image (shiftHead m.prunedHeads))).card =
        m.numAttentionHeads - (H \ m.prunedHeads).card := by
      have hsub2 : H \ m.prunedHeads ⊆ Finset.range m.numAttentionHeads :=
        fun x hx => hsub (Finset.mem_sdiff.mp hx).1
      rw [card_range_filter_not_mem m.numAttentionHeads _
          (shift_image_subset_range m.prunedHeads _ _ hsub2),
        card_shift_image m.prunedHeads _ (fun x hx => (Finset.mem_sdiff.mp hx).2)]
    rw [hfilter, hc]
    have hs2 : (m.dim / m.numAttentionHeads) *
          (m.numAttentionHeads - (H \ m.prunedHeads).card) /
          (m.numAttentionHeads - (H \ m.prunedHeads).card) *
          (m.numAttentionHeads - (H \ m.prunedHeads).card) =
        (m.dim / m.numAttentionHeads) *
          (m.numAttentionHeads - (H \ m.prunedHeads).card) := by
      rcases Nat.eq_zero_or_pos (m.numAttentionHeads - (H \ m.prunedHeads).card) with h | h
      · simp [h]
      · rw [Nat.mul_div_cancel _ h]
    rw [hs2]

/-- Witness for C4 on a 2-head module of width 4 pruning head 0. -/
theorem pruneHeads_idempotent_witness :
    (MultiHeadSelfAttention.pruneHeads
        (MultiHeadSelfAttention.pruneHeads ⟨2, 4, (4, 4), (4, 4), (4, 4), (4, 4), ∅⟩ {0})
        {0}) =
      MultiHeadSelfAttention.pruneHeads ⟨2, 4, (4, 4), (4, 4), (4, 4), (4, 4), ∅⟩ {0} :=
  pruneHeads_idempotent ⟨2, 4, (4, 4), (4, 4), (4, 4), (4, 4), ∅⟩ {0} (by decide)

/-- C5: after prune_heads(H) on a module with `num_heads` heads and width
`old_width`, for every valid set H of not-yet-pruned head indices the
effective width equals `old_width * (num_heads - |H|) / num_heads` exactly
and the head count equals `num_heads - |H|`. -/
theorem pruneHeads_proportional (m : MultiHeadSelfAttention) (H : Finset ℕ)
    (hsub : H ⊆ Finset.range m.numAttentionHeads)
    (hfresh : Disjoint H m.prunedHeads)
    (hdvd : m.numAttentionHeads ∣ m.dim)
    (hpos : 0 < m.numAttentionHeads) :
    ((m.pruneHeads H).dim : ℚ) =
      (m.dim : ℚ) * ((m.numAttentionHeads : ℚ) - (H.card : ℚ)) / (m.numAttentionHeads : ℚ) ∧
    (m.pruneHeads H).numAttentionHeads = m.numAttentionHeads - H.card := by
  obtain ⟨k, hk⟩ := hdvd
  have hn : ((m.numAttentionHeads : ℚ)) ≠ 0 :=
    Nat.cast_ne_zero.mpr (Nat.pos_iff_ne_zero.mp hpos)
  have hcard : H.card ≤ m.numAttentionHeads := by
    simpa using Finset.card_le_card hsub
  have hHsd : H \ m.prunedHeads = H :=
    Finset.sdiff_eq_self_iff_disjoint.mpr hfresh
  by_cases h0 : H.card = 0
  · obtain rfl : H = ∅ := Finset.card_eq_zero.mp h0
    have hsimp : m.pruneHeads ∅ = m := by
      simp [MultiHeadSelfAttention.pruneHeads]
    rw [hsimp]
    refine ⟨?_, by simp⟩
    simp only [Finset.card_empty, Nat.cast_zero, sub_zero]
    rw [mul_div_assoc, div_self hn, mul_one]
  · rw [pruneHeads_eq m H h0]
    simp only [hHsd]
    constructor
    · show ((m.dim / m.numAttentionHeads * (m.numAttentionHeads - H.card) : ℕ) : ℚ) = _
      rw [hk, Nat.mul_div_cancel_left k hpos]
      push_cast [Nat.cast_sub hcard]
      field_simp
      ring
    · trivial

/-- Witness for C5 on a 2-head module of width 4 pruning head 1. -/
theorem pruneHeads_proportional_witness :
    ((MultiHeadSelfAttention.pruneHeads ⟨2, 4, (4, 4), (4, 4), (4, 4), (4, 4), ∅⟩ {1}).dim : ℚ) =
      ((4 : ℕ) : ℚ) * (((2 : ℕ) : ℚ) - ((Finset.card {1} : ℕ) : ℚ)) / ((2 : ℕ) : ℚ) ∧
    (MultiHeadSelfAttention.pruneHeads
        ⟨2, 4, (4, 4), (4, 4), (4, 4), (4, 4), ∅⟩ {1}).numAttentionHeads =
      2 - Finset.card {1} :=
  pruneHeads_proportional ⟨2, 4, (4, 4), (4, 4), (4, 4), (4, 4), ∅⟩ {1}
    (by decide) (by simp) (by decide) (by decide)

/-- C9: for every `pos < n_pos` and `j < dim` the sinusoidal
position-embedding table holds `sin(pos / 10000^(2*(j//2)/dim))` at even `j`
and `cos(pos / 10000^(2*(j//2)/dim))` at odd `j`, and the table is excluded
from gradient updates. -/
theorem sinusoidal_embedding_entries (nPos dim pos j : ℕ) (out : EmbTable)
    (hpos : pos < nPos) (hj : j < dim) :
    (createSinusoidalEmbeddings nPos dim out).entry pos j =
      (if j % 2 = 0
        then Real.sin ((pos : ℝ) / (10000 : ℝ) ^ (((2 * (j / 2) : ℕ) : ℝ) / (dim : ℝ)))
        else Real.cos ((pos : ℝ) / (10000 : ℝ) ^ (((2 * (j / 2) : ℕ) : ℝ) / (dim : ℝ)))) ∧
    (createSinusoidalEmbeddings nPos dim out).requiresGrad = false := by
  refine ⟨?_, rfl⟩
  rcases Nat.mod_two_eq_zero_or_one j with h | h
  · simp [createSinusoidalEmbeddings, writeOddCols, writeEvenCols, positionEnc, hpos, hj, h]
  · simp [createSinusoidalEmbeddings, writeOddCols, writeEvenCols, positionEnc, hpos, hj, h]

/-- Witness for C9 at `n_pos = 2`, `dim = 2`, `pos = 1`, `j = 1`. -/
theorem sinusoidal_embedding_entries_witness :
    ((createSinusoidalEmbeddings 2 2 ⟨fun _ _ => 0, true⟩).entry 1 1 =
      (if 1 % 2 = 0
        then Real.sin (((1 : ℕ) : ℝ) / (10000 : ℝ) ^ (((2 * (1 / 2) : ℕ) : ℝ) / ((2 : ℕ) : ℝ)))
        else Real.cos (((1 : ℕ) : ℝ) / (10000 : ℝ) ^ (((2 * (1 / 2) : ℕ) : ℝ) / ((2 : ℕ) : ℝ))))) ∧
    (createSinusoidalEmbeddings 2 2 ⟨fun _ _ => 0, true⟩).requiresGrad = false :=
  sinusoidal_embedding_entries 2 2 1 1 ⟨fun _ _ => 0, true⟩ (by decide) (by decide)

/-- C7: supplying both token ids and precomputed embeddings, or neither,
makes `DistilRobertaModel.forward` fail with an explicit error at call time;
no truncation, broadcasting or defaulting happens in either case. -/
theorem checkModelInputs_rejects_both_and_neither
    (ids : List (List ℤ)) (e : T3) :
    (∃ m, checkModelInputs (some ids) (some e) = .error m) ∧
    (∃ m, checkModelInputs none none = .error m) :=
  ⟨⟨"You cannot specify both input_ids and inputs_embeds at the same time", rfl⟩,
   ⟨"You have to specify either input_ids or inputs_embeds", rfl⟩⟩

end CausalDistill
